import Mathlib

/-!
Verification of the alphalens factor performance engine.

The repository source at hand is `alphalens/tears.py`, the tear-sheet
orchestration layer.  The statistical engine it drives
(`performance.mean_return_by_quantile`, `performance.quantile_turnover`,
`performance.compute_mean_returns_spread`,
`performance.factor_information_coefficient`,
`performance.average_cumulative_return_by_quantile`, `utils.rate_of_return`)
is declared and called there but its body is not part of the source tree, so
those operations are modelled from the specification text, as flagged in each
doc comment.  Call-site logic (quantile ranges, event-window widening,
max/min quantile arguments) is embedded directly from `tears.py`.

Real returns and prices are modelled as exact rationals; dates, assets,
quantile ids and holding periods are naturals (dates index the ordered date
axis of the panel).  Missing values are `Option`s.
-/

namespace Alphalens

/-- Modelled from the spec: the numeric conversion helper `utils.rate_of_return`
(absent from the source tree).  It converts a period-return series into a
cumulative compounded growth path: a leading baseline value of exactly 1 at
the first time index, each later element obtained from its predecessor by
multiplying by one plus the next period return. -/
def growthPath (base : ℚ) : List ℚ → List ℚ
  | [] => [base]
  | r :: rs => base :: growthPath (base * (1 + r)) rs

/-- Modelled from the spec: `rate_of_return` is the growth path from baseline 1. -/
def rateOfReturn (rets : List ℚ) : List ℚ :=
  growthPath 1 rets

theorem growthPath_replicate_zero (b : ℚ) (n : ℕ) :
    growthPath b (List.replicate n 0) = List.replicate (n + 1) b := by
  induction n generalizing b with
  | zero => rfl
  | succ m ih =>
      simp only [List.replicate_succ, growthPath, mul_one, add_zero]
      rw [ih]
      rfl

theorem growthPath_head (b : ℚ) (l : List ℚ) :
    (growthPath b l)[0]? = some b := by
  cases l <;> simp [growthPath]

theorem growthPath_step (l : List ℚ) :
    ∀ (b : ℚ) (i : ℕ), i < l.length →
      (growthPath b l)[i + 1]? =
        some (((growthPath b l)[i]?).getD 0 * (1 + (l[i]?).getD 0)) := by
  induction l with
  | nil => intro b i hi; simp at hi
  | cons r rs ih =>
      intro b i hi
      cases i with
      | zero =>
          simp only [growthPath, List.getElem?_cons_succ, List.getElem?_cons_zero,
            growthPath_head, Option.getD_some]
      | succ j =>
          simp only [growthPath, List.getElem?_cons_succ]
          exact ih (b * (1 + r)) j (by simpa using Nat.lt_of_succ_lt_succ hi)

/-- C8: `rate_of_return` on a constant-zero return series of length `n` yields a
growth path of all 1s; on any series the first output element is the baseline,
exactly 1, and each subsequent element is its predecessor multiplied by one
plus the corresponding period return (multiplicative, not additive,
compounding). -/
theorem rate_of_return_zero_series (n : ℕ) (rets : List ℚ) (i : ℕ)
    (hi : i < rets.length) :
    rateOfReturn (List.replicate n 0) = List.replicate (n + 1) 1 ∧
    (rateOfReturn rets)[0]? = some 1 ∧
    (rateOfReturn rets)[i + 1]? =
      some (((rateOfReturn rets)[i]?).getD 0 * (1 + (rets[i]?).getD 0)) :=
  ⟨growthPath_replicate_zero 1 n, growthPath_head 1 rets, growthPath_step rets 1 i hi⟩

theorem rate_of_return_zero_series_witness :
    0 < [(3 : ℚ), 7].length ∧
    rateOfReturn (List.replicate 2 0) = List.replicate 3 1 :=
  ⟨by decide, (rate_of_return_zero_series 2 [(3 : ℚ), 7] 0 (by decide)).1⟩

/-- One row of the quantile-membership series `factor_data['factor_quantile']`:
a (date, asset) key carrying the integer factor-quantile label. -/
structure QRow where
  date : ℕ
  asset : ℕ
  quantile : ℕ
deriving DecidableEq

/-- Assets belonging to quantile `q` on date `d`. -/
def assetsInQuantile (qf : List QRow) (q d : ℕ) : List ℕ :=
  (qf.filter (fun r => r.quantile == q && r.date == d)).map (fun r => r.asset)

/-- Assets in quantile `q` on date `d` that were not in it `p` periods prior
(set difference over asset identity). -/
def newNames (qf : List QRow) (q p d : ℕ) : List ℕ :=
  (assetsInQuantile qf q d).filter
    (fun a => !((assetsInQuantile qf q (d - p)).contains a))

/-- Modelled from the spec: `performance.quantile_turnover` (absent from the
source tree).  For quantile id `q`, holding period `p` and date `d` (with
`p ≤ d`; dates index the ordered date axis), the fraction of assets in the
quantile on `d` that were not in it `p` periods prior, divided by the count on
`d`; a date with zero assets in the quantile yields the defined value 0. -/
def quantileTurnover (qf : List QRow) (q p d : ℕ) : ℚ :=
  let cur := assetsInQuantile qf q d
  if cur.length = 0 then 0
  else ((newNames qf q p d).length : ℚ) / (cur.length : ℚ)

/-- C6: a date on which the requested quantile contains zero assets yields the
defined turnover value 0 — the division by the asset count never faults. -/
theorem quantile_turnover_empty_quantile_zero (qf : List QRow) (q p d : ℕ)
    (h : assetsInQuantile qf q d = []) :
    quantileTurnover qf q p d = 0 := by
  simp [quantileTurnover, h]

theorem quantile_turnover_empty_quantile_zero_witness :
    assetsInQuantile [⟨0, 1, 1⟩] 2 0 = [] ∧
    quantileTurnover [⟨0, 1, 1⟩] 2 3 0 = 0 :=
  ⟨by decide, quantile_turnover_empty_quantile_zero [⟨0, 1, 1⟩] 2 3 0 (by decide)⟩

/-- Maximum of the `factor_quantile` column of a quantile-membership series,
as `int(quantile_factor.max())` computes it in `tears.py`. -/
def maxQuantileQ (qf : List QRow) : ℕ :=
  qf.foldr (fun r m => max r.quantile m) 0

/-- The turnover series for one quantile and one holding period, the value
`perf.quantile_turnover(quantile_factor, q, p)` that `tears.py` concatenates,
viewed as a function of the date index. -/
def quantileTurnoverSeries (qf : List QRow) (q p : ℕ) : ℕ → ℚ :=
  fun d => quantileTurnover qf q p d

/-- Embedded from `tears.py` (`create_turnover_tear_sheet` and
`create_summary_tear_sheet`): the per-period turnover table,
`pd.concat([perf.quantile_turnover(quantile_factor, q, p)
for q in range(1, int(quantile_factor.max()) + 1)], axis=1)` —
one column per quantile id from 1 to the maximum label, in order. -/
def turnoverTableFor (qf : List QRow) (p : ℕ) : List (ℕ → ℚ) :=
  (List.range' 1 (maxQuantileQ qf)).map (fun q => quantileTurnoverSeries qf q p)

/-- Embedded from `tears.py`: the dictionary comprehension building one
turnover table per detected forward-return period. -/
def turnoverTables (qf : List QRow) (periods : List ℕ) : List (ℕ × List (ℕ → ℚ)) :=
  periods.map (fun p => (p, turnoverTableFor qf p))

theorem range1_getElem (n : ℕ) :
    ∀ (s i : ℕ), i < n → (List.range' s n)[i]? = some (s + i) := by
  induction n with
  | zero => intro s i hi; exact absurd hi (by omega)
  | succ m ih =>
      intro s i hi
      cases i with
      | zero => simp [List.range']
      | succ j =>
          have := ih (s + 1) j (by omega)
          simp only [List.range', List.getElem?_cons_succ, this]
          congr 1
          omega

/-- C9: for every detected forward-return period `p` and every quantile id `q`
from 1 to the maximum value of the `factor_quantile` column inclusive, the
turnover table built for `p` contains the result of `quantile_turnover` for
`q` exactly once — it has exactly `maxQuantileQ` columns and column `i` is the
series for quantile `i + 1` — and one such table is produced per period. -/
theorem turnover_tables_per_quantile (qf : List QRow) (periods : List ℕ) (p : ℕ)
    (hp : p ∈ periods) :
    (p, turnoverTableFor qf p) ∈ turnoverTables qf periods ∧
    (turnoverTables qf periods).length = periods.length ∧
    (turnoverTableFor qf p).length = maxQuantileQ qf ∧
    ∀ i, i < maxQuantileQ qf →
      (turnoverTableFor qf p)[i]? = some (quantileTurnoverSeries qf (1 + i) p) := by
  refine ⟨List.mem_map.mpr ⟨p, hp, rfl⟩, List.length_map _ _, ?_, ?_⟩
  · simp [turnoverTableFor]
  · intro i hi
    simp only [turnoverTableFor, List.getElem?_map, range1_getElem _ 1 i hi]
    rfl

theorem turnover_tables_per_quantile_witness :
    (1 ∈ [1, 5]) ∧
    (turnoverTableFor [⟨0, 7, 1⟩, ⟨0, 8, 2⟩] 1).length =
      maxQuantileQ [⟨0, 7, 1⟩, ⟨0, 8, 2⟩] :=
  ⟨by decide,
    (turnover_tables_per_quantile [⟨0, 7, 1⟩, ⟨0, 8, 2⟩] [1, 5] 1 (by decide)).2.2.1⟩

/-- Maximum of a list of holding periods, as Python `max(...)` computes it on
the (nonempty) list of detected forward-return columns. -/
def maxList (l : List ℕ) : ℕ :=
  l.foldr max 0

/-- Embedded from `tears.py` (`create_event_returns_tear_sheet`, lines 392-393):
`before, after = avgretplot;
after = max(after, max(utils.get_forward_returns_columns(...)) + 1)`.
The pair actually passed to `average_cumulative_return_by_quantile` as
`(periods_before, periods_after)`. -/
def eventWindow (avgretplot : ℕ × ℕ) (periods : List ℕ) : ℕ × ℕ :=
  (avgretplot.1, max avgretplot.2 (maxList periods + 1))

/-- C10: the `periods_after` actually passed is the maximum of the
caller-supplied `avgretplot[1]` and the largest detected forward-return period
plus one — a smaller caller value is silently enlarged to that bound — while
the caller-supplied `before` is passed through unchanged. -/
theorem event_window_periods_after (b a : ℕ) (periods : List ℕ)
    (hne : periods ≠ []) :
    (eventWindow (b, a) periods).1 = b ∧
    a ≤ (eventWindow (b, a) periods).2 ∧
    maxList periods + 1 ≤ (eventWindow (b, a) periods).2 ∧
    ((eventWindow (b, a) periods).2 = a ∨
      (eventWindow (b, a) periods).2 = maxList periods + 1) := by
  refine ⟨rfl, le_max_left _ _, le_max_right _ _, ?_⟩
  exact max_choice a (maxList periods + 1)

theorem event_window_periods_after_witness :
    ([5] : List ℕ) ≠ [] ∧ (eventWindow (2, 3) [5]).1 = 2 :=
  ⟨by decide, (event_window_periods_after 2 3 [5] (by decide)).1⟩

/-- One row of the factor panel: (date, asset) key, optional group label,
factor-quantile label, and one forward-return value per holding period
(`ret p` is the row's return for period column `p`). -/
structure PanelRow where
  date : ℕ
  asset : ℕ
  group : ℕ
  quantile : ℕ
  ret : ℕ → ℚ

/-- The (date[, group]) slice of the panel: the rows demeaning is computed
over — all rows of date `d`, restricted to group `g` when `byGroup`. -/
def sliceOf (panel : List PanelRow) (byGroup : Bool) (d g : ℕ) : List PanelRow :=
  panel.filter (fun r => r.date == d && (!byGroup || r.group == g))

/-- Sum of the period-`p` returns of a set of rows. -/
def retSum (rows : List PanelRow) (p : ℕ) : ℚ :=
  (rows.map (fun r => r.ret p)).sum

/-- Cross-sectional mean return of a slice for period `p`. -/
def crossMean (rows : List PanelRow) (p : ℕ) : ℚ :=
  retSum rows p / rows.length

/-- The rows of a slice carrying quantile label `q`. -/
def quantileRows (rows : List PanelRow) (q : ℕ) : List PanelRow :=
  rows.filter (fun r => r.quantile == q)

/-- Sum over quantile `q` of the demeaned returns of a slice. -/
def demeanedSum (rows : List PanelRow) (q p : ℕ) : ℚ :=
  ((quantileRows rows q).map (fun r => r.ret p - crossMean rows p)).sum

/-- Modelled from the spec: one cell of
`performance.mean_return_by_quantile(..., by_date=True, demeaned=True)`
(absent from the source tree).  The cross-sectional mean return across all
quantiles of the (date[, group]) slice is subtracted from each row's return,
and the results are averaged within quantile `q`. -/
def meanReturnByQuantileDemeaned (panel : List PanelRow) (byGroup : Bool)
    (d g q p : ℕ) : ℚ :=
  demeanedSum (sliceOf panel byGroup d g) q p /
    ((quantileRows (sliceOf panel byGroup d g) q).length : ℚ)

theorem sum_filter_quantile (f : PanelRow → ℚ) (Q : ℕ) :
    ∀ l : List PanelRow, (∀ r ∈ l, 1 ≤ r.quantile ∧ r.quantile ≤ Q) →
      (∑ q ∈ Finset.Icc 1 Q, ((l.filter (fun r => r.quantile == q)).map f).sum)
        = (l.map f).sum := by
  intro l
  induction l with
  | nil => intro _; simp
  | cons r t ih =>
      intro h
      have hr := h r (List.mem_cons_self r t)
      have ht : ∀ x ∈ t, 1 ≤ x.quantile ∧ x.quantile ≤ Q :=
        fun x hx => h x (List.mem_cons_of_mem r hx)
      have step : ∀ q ∈ Finset.Icc 1 Q,
          (((r :: t).filter (fun x => x.quantile == q)).map f).sum
            = (if r.quantile = q then f r else 0)
              + ((t.filter (fun x => x.quantile == q)).map f).sum := by
        intro q _
        by_cases hrq : r.quantile = q
        · simp [List.filter_cons, hrq]
        · simp [List.filter_cons, hrq]
      rw [Finset.sum_congr rfl step, Finset.sum_add_distrib, ih ht]
      have hone : (∑ q ∈ Finset.Icc 1 Q, if r.quantile = q then f r else 0) = f r := by
        rw [Finset.sum_ite_eq (Finset.Icc 1 Q) r.quantile (fun _ => f r)]
        simp [Finset.mem_Icc, hr.1, hr.2]
      rw [hone]
      simp

theorem sum_map_sub_const (f : PanelRow → ℚ) (c : ℚ) :
    ∀ l : List PanelRow,
      (l.map (fun r => f r - c)).sum = (l.map f).sum - l.length * c := by
  intro l
  induction l with
  | nil => simp
  | cons r t ih =>
      simp only [List.map_cons, List.sum_cons, ih, List.length_cons]
      push_cast
      ring

/-- C1 fails as stated: a slice whose quantiles hold unequally many rows.
Date 0 has one row in quantile 1 (return 0) and two rows in quantile 2
(returns 0 and 3); the cross-sectional mean is 1, the demeaned quantile means
are -1 and 1/2, and their sum across all quantiles is -1/2, not 0. -/
def c1Panel : List PanelRow :=
  [⟨0, 0, 0, 1, fun _ => 0⟩, ⟨0, 1, 0, 2, fun _ => 0⟩, ⟨0, 2, 0, 2, fun _ => 3⟩]

theorem demeaned_quantile_mean_sum_counterexample :
    (∑ q ∈ Finset.Icc 1 2, meanReturnByQuantileDemeaned c1Panel false 0 0 q 0) ≠ 0 := by
  have h12 : (Finset.Icc 1 2 : Finset ℕ) = {1, 2} := by decide
  rw [h12, Finset.sum_insert (by decide), Finset.sum_singleton]
  norm_num [meanReturnByQuantileDemeaned, demeanedSum, quantileRows, sliceOf,
    crossMean, retSum, c1Panel, List.filter_cons]

/-- C1 (amended): for every demeaned aggregation, within any single identical
(date[, group]) slice and for every period column, the count-weighted sum of
the mean returns across all quantiles — each quantile's mean weighted by the
number of slice rows in that quantile — is exactly zero.  (The unweighted sum
of the claim is zero exactly when all quantiles hold equally many rows.) -/
theorem demeaned_quantile_mean_weighted_sum_zero (panel : List PanelRow)
    (byGroup : Bool) (d g p Q : ℕ)
    (hQ : ∀ r ∈ sliceOf panel byGroup d g, 1 ≤ r.quantile ∧ r.quantile ≤ Q) :
    ∑ q ∈ Finset.Icc 1 Q,
      ((quantileRows (sliceOf panel byGroup d g) q).length : ℚ) *
        meanReturnByQuantileDemeaned panel byGroup d g q p = 0 := by
  have hterm : ∀ q ∈ Finset.Icc 1 Q,
      ((quantileRows (sliceOf panel byGroup d g) q).length : ℚ) *
        meanReturnByQuantileDemeaned panel byGroup d g q p
        = demeanedSum (sliceOf panel byGroup d g) q p := by
    intro q _
    by_cases hz : (quantileRows (sliceOf panel byGroup d g) q).length = 0
    · have hnil : quantileRows (sliceOf panel byGroup d g) q = [] :=
        List.length_eq_zero.mp hz
      simp [meanReturnByQuantileDemeaned, demeanedSum, hnil]
    · have hqz : ((quantileRows (sliceOf panel byGroup d g) q).length : ℚ) ≠ 0 :=
        Nat.cast_ne_zero.mpr hz
      rw [meanReturnByQuantileDemeaned, mul_comm, div_mul_cancel₀ _ hqz]
  rw [Finset.sum_congr rfl hterm]
  have hfib := sum_filter_quantile
    (fun r => r.ret p - crossMean (sliceOf panel byGroup d g) p) Q
    (sliceOf panel byGroup d g) hQ
  by_cases hsz : (sliceOf panel byGroup d g).length = 0
  · have hnil : sliceOf panel byGroup d g = [] := List.length_eq_zero.mp hsz
    simp [demeanedSum, quantileRows, hnil]
  · have hcast : ((sliceOf panel byGroup d g).length : ℚ) ≠ 0 :=
      Nat.cast_ne_zero.mpr hsz
    calc ∑ q ∈ Finset.Icc 1 Q, demeanedSum (sliceOf panel byGroup d g) q p
        = ((sliceOf panel byGroup d g).map
            (fun r => r.ret p - crossMean (sliceOf panel byGroup d g) p)).sum := by
          simp only [demeanedSum, quantileRows]
          exact hfib
      _ = ((sliceOf panel byGroup d g).map (fun r => r.ret p)).sum
            - ((sliceOf panel byGroup d g).length : ℚ) *
                crossMean (sliceOf panel byGroup d g) p :=
          sum_map_sub_const (fun r => r.ret p) _ _
      _ = 0 := by
          rw [crossMean, retSum, mul_comm, div_mul_cancel₀ _ hcast, sub_self]

theorem demeaned_quantile_mean_weighted_sum_zero_witness :
    (∀ r ∈ sliceOf c1Panel false 0 0, 1 ≤ r.quantile ∧ r.quantile ≤ 2) ∧
    ∑ q ∈ Finset.Icc 1 2,
      ((quantileRows (sliceOf c1Panel false 0 0) q).length : ℚ) *
        meanReturnByQuantileDemeaned c1Panel false 0 0 q 0 = 0 :=
  ⟨by decide, demeaned_quantile_mean_weighted_sum_zero c1Panel false 0 0 0 2 (by decide)⟩

/-- One event observation: a (date, asset) pair of the quantile-label series
handed to `average_cumulative_return_by_quantile`, with its quantile label. -/
structure EventObs where
  date : ℕ
  asset : ℕ
  quantile : ℕ
deriving DecidableEq

/-- The wide date-by-asset price table; `none` where no price is available.
Dates index the ordered date axis of the table. -/
def getPrice (prices : ℕ → ℕ → Option ℚ) (d a : ℕ) : ℚ :=
  (prices d a).getD 0

/-- Whether the event window of `pb` periods before to `pa` periods after an
observation lies entirely inside the available price history: the date must be
at least `pb` steps from the start and every date of the window must carry a
price for the asset. -/
def windowOK (prices : ℕ → ℕ → Option ℚ) (pb pa : ℕ) (e : EventObs) : Bool :=
  decide (pb ≤ e.date) &&
    (List.range (pb + pa + 1)).all (fun i => (prices (e.date - pb + i) e.asset).isSome)

/-- The per-asset cumulative return path of an observation: the price at window
position `i` (relative offset `i - pb`) divided by the event-date price, so the
path is rebased to 1 at offset 0. -/
def cumRet (prices : ℕ → ℕ → Option ℚ) (pb : ℕ) (e : EventObs) (i : ℕ) : ℚ :=
  getPrice prices (e.date - pb + i) e.asset / getPrice prices e.date e.asset

/-- The observations of quantile `q` whose window fits the price history; all
others are excluded from the per-quantile average. -/
def includedObs (obs : List EventObs) (prices : ℕ → ℕ → Option ℚ)
    (pb pa q : ℕ) : List EventObs :=
  obs.filter (fun e => e.quantile == q && windowOK prices pb pa e)

/-- Modelled from the spec: one cell of
`performance.average_cumulative_return_by_quantile` before demeaning (absent
from the source tree).  The mean over quantile `q`'s included observations of
the rebased cumulative-return path at window position `i` (offset `i - pb`). -/
def avgCumRetByQuantile (obs : List EventObs) (prices : ℕ → ℕ → Option ℚ)
    (pb pa q i : ℕ) : ℚ :=
  ((includedObs obs prices pb pa q).map (fun e => cumRet prices pb e i)).sum /
    ((includedObs obs prices pb pa q).length : ℚ)

theorem sum_map_ones {α : Type} (f : α → ℚ) :
    ∀ l : List α, (∀ e ∈ l, f e = 1) → (l.map f).sum = l.length := by
  intro l
  induction l with
  | nil => intro _; simp
  | cons x t ih =>
      intro h
      simp only [List.map_cons, List.sum_cons, List.length_cons,
        h x (List.mem_cons_self x t), ih fun e he => h e (List.mem_cons_of_mem x he)]
      push_cast
      ring

theorem included_window_ok (obs : List EventObs) (prices : ℕ → ℕ → Option ℚ)
    (pb pa q : ℕ) (e : EventObs) (he : e ∈ includedObs obs prices pb pa q) :
    pb ≤ e.date := by
  have hmem := (List.mem_filter.mp he).2
  simp only [windowOK, Bool.and_eq_true, decide_eq_true_eq] at hmem
  exact hmem.2.1

/-- C2: for every quantile with at least one included observation, the mean
cumulative-return path before demeaning equals exactly 1 at relative offset 0
(window position `pb`), since each per-asset window is rebased to 1 at the
event date. -/
theorem avg_cum_return_offset_zero_eq_one (obs : List EventObs)
    (prices : ℕ → ℕ → Option ℚ) (pb pa q : ℕ)
    (hne : includedObs obs prices pb pa q ≠ [])
    (hpos : ∀ e ∈ includedObs obs prices pb pa q, getPrice prices e.date e.asset ≠ 0) :
    avgCumRetByQuantile obs prices pb pa q pb = 1 := by
  have hones : ∀ e ∈ includedObs obs prices pb pa q, cumRet prices pb e pb = 1 := by
    intro e he
    have hle : pb ≤ e.date := included_window_ok obs prices pb pa q e he
    rw [cumRet, Nat.sub_add_cancel hle]
    exact div_self (hpos e he)
  have hlen : ((includedObs obs prices pb pa q).length : ℚ) ≠ 0 :=
    Nat.cast_ne_zero.mpr (fun hz => hne (List.length_eq_zero.mp hz))
  rw [avgCumRetByQuantile, sum_map_ones _ _ hones, div_self hlen]

def c2Obs : List EventObs :=
  [⟨1, 0, 1⟩]

def c2Prices : ℕ → ℕ → Option ℚ :=
  fun d a => if d ≤ 2 ∧ a = 0 then some 2 else none

theorem avg_cum_return_offset_zero_eq_one_witness :
    includedObs c2Obs c2Prices 1 1 1 ≠ [] ∧
    avgCumRetByQuantile c2Obs c2Prices 1 1 1 1 = 1 := by
  have hinc : includedObs c2Obs c2Prices 1 1 1 = [⟨1, 0, 1⟩] := by decide
  refine ⟨by decide, avg_cum_return_offset_zero_eq_one c2Obs c2Prices 1 1 1 (by decide) ?_⟩
  intro e he
  rw [hinc] at he
  have he1 : e = ⟨1, 0, 1⟩ := by simpa using he
  subst he1
  norm_num [getPrice, c2Prices]

/-- C7: an observation whose window runs past an edge of the price history is
excluded: prepending it changes neither the included set nor any per-quantile
average at any offset, the computation stays total, and every other
observation with a fitting window and the right quantile is still averaged. -/
theorem avg_cum_return_excludes_edge_windows (rest : List EventObs)
    (e : EventObs) (prices : ℕ → ℕ → Option ℚ) (pb pa q i : ℕ)
    (hbad : windowOK prices pb pa e = false) :
    includedObs (e :: rest) prices pb pa q = includedObs rest prices pb pa q ∧
    avgCumRetByQuantile (e :: rest) prices pb pa q i
      = avgCumRetByQuantile rest prices pb pa q i ∧
    ∀ e2 ∈ rest, e2.quantile = q → windowOK prices pb pa e2 = true →
      e2 ∈ includedObs (e :: rest) prices pb pa q := by
  have hfil : includedObs (e :: rest) prices pb pa q
      = includedObs rest prices pb pa q := by
    simp [includedObs, List.filter_cons, hbad]
  refine ⟨hfil, by rw [avgCumRetByQuantile, hfil, avgCumRetByQuantile], ?_⟩
  intro e2 h2 hq hw
  exact List.mem_filter.mpr ⟨List.mem_cons_of_mem e h2, by simp [hq, hw]⟩

def c7Prices : ℕ → ℕ → Option ℚ :=
  fun d a => if d ≤ 4 ∧ a = 0 then some 1 else none

theorem avg_cum_return_excludes_edge_windows_witness :
    windowOK c7Prices 2 1 ⟨0, 0, 1⟩ = false ∧
    includedObs [⟨0, 0, 1⟩, ⟨2, 0, 1⟩] c7Prices 2 1 1
      = includedObs [⟨2, 0, 1⟩] c7Prices 2 1 1 :=
  ⟨by decide,
    (avg_cum_return_excludes_edge_windows [⟨2, 0, 1⟩] ⟨0, 0, 1⟩ c7Prices 2 1 1 0
      (by decide)).1⟩

/-- One row of the mean-return (and standard-error) table produced by the
daily quantile aggregation: keyed by (quantile, date), carrying one mean
return and one standard error per period column. -/
structure MeanEntry where
  quantile : ℕ
  date : ℕ
  ret : ℕ → ℚ
  se : ℕ → ℚ

/-- Lookup of the (quantile, date) row of the mean-return table. -/
def findEntry (tbl : List MeanEntry) (q d : ℕ) : Option MeanEntry :=
  tbl.find? (fun e => e.quantile == q && e.date == d)

/-- Modelled from the spec: `performance.compute_mean_returns_spread` (absent
from the source tree).  Per date and period, the difference between the upper
and the lower quantile's mean return; `none` when either quantile id is absent
— never a silent zero. -/
def computeMeanReturnsSpread (tbl : List MeanEntry) (upper lower d p : ℕ) :
    Option ℚ :=
  match findEntry tbl upper d, findEntry tbl lower d with
  | some u, some l => some (u.ret p - l.ret p)
  | _, _ => none

/-- Modelled from the spec: the pooled standard error
`sqrt(se_upper^2 + se_lower^2)` of the spread, represented by its square
(the square root of a rational is irrational in general; the root itself is
recovered through `Real.sqrt` in the accompanying theorem). -/
def spreadStdErrSq (tbl : List MeanEntry) (upper lower d p : ℕ) : Option ℚ :=
  match findEntry tbl upper d, findEntry tbl lower d with
  | some u, some l => some (u.se p ^ 2 + l.se p ^ 2)
  | _, _ => none

/-- Maximum of the panel's `factor_quantile` column,
`factor_data['factor_quantile'].max()` in `tears.py`. -/
def maxPanelQuantile (panel : List PanelRow) : ℕ :=
  panel.foldr (fun r m => max r.quantile m) 0

def minQuantAux (m : ℕ) : List PanelRow → ℕ
  | [] => m
  | r :: t => minQuantAux (min m r.quantile) t

/-- Minimum of the panel's `factor_quantile` column,
`factor_data['factor_quantile'].min()` in `tears.py` (0 on an empty panel). -/
def minPanelQuantile : List PanelRow → ℕ
  | [] => 0
  | r :: t => minQuantAux r.quantile t

/-- Embedded from `tears.py` (`create_returns_tear_sheet` lines 172-176,
`create_summary_tear_sheet` lines 93-97): the spread is requested with
`upper = factor_data['factor_quantile'].max()` and
`lower = factor_data['factor_quantile'].min()`. -/
def tearSheetSpread (panel : List PanelRow) (tbl : List MeanEntry) (d p : ℕ) :
    Option ℚ :=
  computeMeanReturnsSpread tbl (maxPanelQuantile panel) (minPanelQuantile panel) d p

theorem le_maxPanelQuantile :
    ∀ panel : List PanelRow, ∀ r ∈ panel, r.quantile ≤ maxPanelQuantile panel := by
  intro panel
  induction panel with
  | nil => intro r hr; simp at hr
  | cons x t ih =>
      intro r hr
      rcases List.mem_cons.mp hr with h | h
      · subst h; exact le_max_left _ _
      · exact le_trans (ih r h) (le_max_right _ _)

theorem minQuantAux_le :
    ∀ (t : List PanelRow) (m : ℕ),
      minQuantAux m t ≤ m ∧ ∀ r ∈ t, minQuantAux m t ≤ r.quantile := by
  intro t
  induction t with
  | nil => intro m; exact ⟨le_refl m, fun r hr => absurd hr (List.not_mem_nil r)⟩
  | cons x s ih =>
      intro m
      refine ⟨le_trans (ih (min m x.quantile)).1 (min_le_left _ _), ?_⟩
      intro r hr
      rcases List.mem_cons.mp hr with h | h
      · subst h; exact le_trans (ih _).1 (min_le_right _ _)
      · exact (ih _).2 r h

theorem minPanelQuantile_le :
    ∀ panel : List PanelRow, ∀ r ∈ panel, minPanelQuantile panel ≤ r.quantile := by
  intro panel
  cases panel with
  | nil => intro r hr; simp at hr
  | cons x t =>
      intro r hr
      rcases List.mem_cons.mp hr with h | h
      · subst h; exact (minQuantAux_le t _).1
      · exact (minQuantAux_le t x.quantile).2 r h

/-- C3: when both quantile ids are present, the spread at every date and
period is the upper entry's mean minus the lower entry's mean and the pooled
standard error is `sqrt(se_upper^2 + se_lower^2)` (its square is the pooled
variance and the root squares back to it); the tear sheets invoke the spread
with upper = the maximum and lower = the minimum quantile label of the panel. -/
theorem compute_mean_returns_spread_correct (tbl : List MeanEntry)
    (panel : List PanelRow) (upper lower d p : ℕ) (u l : MeanEntry)
    (hu : findEntry tbl upper d = some u) (hl : findEntry tbl lower d = some l) :
    computeMeanReturnsSpread tbl upper lower d p = some (u.ret p - l.ret p) ∧
    spreadStdErrSq tbl upper lower d p = some (u.se p ^ 2 + l.se p ^ 2) ∧
    Real.sqrt ((u.se p : ℝ) ^ 2 + (l.se p : ℝ) ^ 2) ^ 2
      = (u.se p : ℝ) ^ 2 + (l.se p : ℝ) ^ 2 ∧
    tearSheetSpread panel tbl d p
      = computeMeanReturnsSpread tbl (maxPanelQuantile panel)
          (minPanelQuantile panel) d p ∧
    ∀ r ∈ panel,
      minPanelQuantile panel ≤ r.quantile ∧ r.quantile ≤ maxPanelQuantile panel := by
  refine ⟨by simp [computeMeanReturnsSpread, hu, hl],
    by simp [spreadStdErrSq, hu, hl],
    Real.sq_sqrt (by positivity), rfl, ?_⟩
  intro r hr
  exact ⟨minPanelQuantile_le panel r hr, le_maxPanelQuantile panel r hr⟩

def c3U : MeanEntry := ⟨2, 0, fun _ => 5, fun _ => 3⟩

def c3L : MeanEntry := ⟨1, 0, fun _ => 1, fun _ => 4⟩

def c3Tbl : List MeanEntry := [c3U, c3L]

def c3Panel : List PanelRow :=
  [⟨0, 0, 0, 1, fun _ => 0⟩, ⟨0, 1, 0, 2, fun _ => 0⟩]

theorem compute_mean_returns_spread_correct_witness :
    findEntry c3Tbl 2 0 = some c3U ∧ findEntry c3Tbl 1 0 = some c3L ∧
    computeMeanReturnsSpread c3Tbl 2 1 0 0 = some (c3U.ret 0 - c3L.ret 0) :=
  ⟨rfl, rfl,
    (compute_mean_returns_spread_correct c3Tbl c3Panel 2 1 0 0 c3U c3L rfl rfl).1⟩

theorem findEntry_none (tbl : List MeanEntry) (q d : ℕ)
    (h : ∀ e ∈ tbl, e.quantile ≠ q) : findEntry tbl q d = none := by
  rw [findEntry]
  apply List.find?_eq_none.mpr
  intro e he
  simp [h e he]

/-- C4: a requested quantile id (upper or lower) absent from the input makes
`compute_mean_returns_spread` return the distinct empty value `none` for every
date and period — for both the spread and its standard error — and in
particular it never silently returns zero for the spread. -/
theorem compute_mean_returns_spread_absent_quantile (tbl : List MeanEntry)
    (upper lower d p : ℕ)
    (habs : (∀ e ∈ tbl, e.quantile ≠ upper) ∨ (∀ e ∈ tbl, e.quantile ≠ lower)) :
    computeMeanReturnsSpread tbl upper lower d p = none ∧
    spreadStdErrSq tbl upper lower d p = none ∧
    ∀ x : ℚ, computeMeanReturnsSpread tbl upper lower d p ≠ some x := by
  have main : computeMeanReturnsSpread tbl upper lower d p = none ∧
      spreadStdErrSq tbl upper lower d p = none := by
    rcases habs with h | h
    · have hn : findEntry tbl upper d = none := findEntry_none tbl upper d h
      cases hfl : findEntry tbl lower d <;>
        exact ⟨by simp [computeMeanReturnsSpread, hn, hfl],
          by simp [spreadStdErrSq, hn, hfl]⟩
    · have hn : findEntry tbl lower d = none := findEntry_none tbl lower d h
      cases hfu : findEntry tbl upper d <;>
        exact ⟨by simp [computeMeanReturnsSpread, hn, hfu],
          by simp [spreadStdErrSq, hn, hfu]⟩
  exact ⟨main.1, main.2, fun x hx => by rw [main.1] at hx; exact Option.noConfusion hx⟩

def c4Tbl : List MeanEntry := [⟨1, 0, fun _ => 1, fun _ => 1⟩]

theorem compute_mean_returns_spread_absent_quantile_witness :
    (∀ e ∈ c4Tbl, e.quantile ≠ 3) ∧
    computeMeanReturnsSpread c4Tbl 3 1 0 0 = none :=
  ⟨by decide,
    (compute_mean_returns_spread_absent_quantile c4Tbl 3 1 0 0 (Or.inl (by decide))).1⟩

/-- One row of the panel as seen by the IC computation: the date, the possibly
missing factor value, and the possibly missing forward return per period. -/
structure ICRow where
  date : ℕ
  factor : Option ℚ
  fret : ℕ → Option ℚ

/-- The cross-section of date `d` for period `p`: the (factor, forward return)
pairs of the rows where both values are non-missing. -/
def completeObs (panel : List ICRow) (d p : ℕ) : List (ℚ × ℚ) :=
  panel.filterMap (fun r =>
    if r.date = d then
      match r.factor, r.fret p with
      | some f, some x => some (f, x)
      | _, _ => none
    else none)

/-- Average rank of the value `x` within the list `l` (ties share the mean of
the rank positions they occupy). -/
def avgRank (l : List ℚ) (x : ℚ) : ℚ :=
  ((l.filter (fun y => decide (y < x))).length : ℚ) +
    (((l.filter (fun y => y == x)).length : ℚ) + 1) / 2

/-- Spearman rank correlation of a list of pairs: rank-transform both
coordinates, then the closed-form normalization `1 - 6*sum d_i^2 / (n(n^2-1))`
(exact in ℚ; it agrees with Pearson applied to the ranks in the tie-free
case). -/
def spearmanOnRanks (pairs : List (ℚ × ℚ)) : ℚ :=
  let xs := pairs.map Prod.fst
  let ys := pairs.map Prod.snd
  let n : ℚ := (pairs.length : ℚ)
  let dsq := (pairs.map (fun pr => (avgRank xs pr.1 - avgRank ys pr.2) ^ 2)).sum
  1 - 6 * dsq / (n * (n ^ 2 - 1))

/-- Modelled from the spec: one cell of
`performance.factor_information_coefficient` (absent from the source tree).
The rank correlation of the date's cross-section, or `none` — an undefined,
missing coefficient — when the date has fewer than 2 non-missing
(factor, forward return) observations. -/
def factorInformationCoefficient (panel : List ICRow) (d p : ℕ) : Option ℚ :=
  if (completeObs panel d p).length < 2 then none
  else some (spearmanOnRanks (completeObs panel d p))

/-- The IC table: one coefficient cell per date of the index. -/
def icTable (panel : List ICRow) (dates : List ℕ) (p : ℕ) : List (ℕ × Option ℚ) :=
  dates.map (fun d => (d, factorInformationCoefficient panel d p))

theorem completeObs_erase (panel : List ICRow) (d d2 p : ℕ) (hne : d2 ≠ d) :
    completeObs (panel.filter (fun r => !(r.date == d))) d2 p
      = completeObs panel d2 p := by
  induction panel with
  | nil => rfl
  | cons r t ih =>
      by_cases hrd : r.date = d
      · have hr2 : ¬ r.date = d2 := by rw [hrd]; exact fun hh => hne hh.symm
        have h1 : (r :: t).filter (fun r => !(r.date == d))
            = t.filter (fun r => !(r.date == d)) := by
          simp [List.filter_cons, hrd]
        have h2 : completeObs (r :: t) d2 p = completeObs t d2 p := by
          simp only [completeObs, List.filterMap_cons, if_neg hr2]
        rw [h1, h2]
        exact ih
      · have h1 : (r :: t).filter (fun r => !(r.date == d))
            = r :: t.filter (fun r => !(r.date == d)) := by
          simp [List.filter_cons, hrd]
        rw [h1]
        simp only [completeObs, List.filterMap_cons]
        cases hfr : (if r.date = d2 then
            match r.factor, r.fret p with
            | some f, some x => some (f, x)
            | _, _ => none
          else none) with
        | none => simpa [completeObs, hfr] using ih
        | some v => simpa [completeObs, hfr] using ih

/-- C5: a date whose cross-section has fewer than 2 non-missing
(factor, forward return) observations gets the undefined (missing)
coefficient `none`; the table is still produced for every requested date, and
every other date's coefficient is unchanged when the sparse date's rows are
removed — the sparse date never makes the whole computation fail. -/
theorem factor_ic_sparse_date_missing (panel : List ICRow) (dates : List ℕ)
    (d p : ℕ) (h : (completeObs panel d p).length < 2) :
    factorInformationCoefficient panel d p = none ∧
    (icTable panel dates p).length = dates.length ∧
    ∀ d2, d2 ≠ d →
      factorInformationCoefficient (panel.filter (fun r => !(r.date == d))) d2 p
        = factorInformationCoefficient panel d2 p := by
  refine ⟨by simp [factorInformationCoefficient, h], List.length_map _ _, ?_⟩
  intro d2 hne
  rw [factorInformationCoefficient, factorInformationCoefficient,
    completeObs_erase panel d d2 p hne]

def c5Panel : List ICRow :=
  [⟨0, some 1, fun _ => some 1⟩, ⟨0, none, fun _ => some 1⟩,
    ⟨1, some 1, fun _ => some 2⟩, ⟨1, some 2, fun _ => some 1⟩]

theorem factor_ic_sparse_date_missing_witness :
    (completeObs c5Panel 0 0).length < 2 ∧
    factorInformationCoefficient c5Panel 0 0 = none :=
  ⟨by decide, (factor_ic_sparse_date_missing c5Panel [0, 1] 0 0 (by decide)).1⟩

end Alphalens
